import Mathlib

/-!
Verification development for the BPE (byte-pair encoding) model of the
tokenizers library (`src/tokenizers/src/models/bpe/model.rs`).

Strings are modelled as lists of bytes (`ByteStr`), and an input sequence is
given as its list of UTF-8 character spans (each a non-empty byte string),
mirroring Rust's `char_indices` iteration.  Hash maps (`AHashMap`) are
modelled as association lists with first-match lookup and replace-or-append
insertion, which matches the observable insert/get behaviour of a hash map.
-/

namespace Bpe

/-- A byte string: the list of bytes of a Rust `String` / `&str`. -/
abbrev ByteStr := List Nat

/-- First-match lookup in an association list (models `HashMap::get`). -/
def lookupA {α β : Type} [DecidableEq α] : List (α × β) → α → Option β
  | [], _ => none
  | (k, v) :: rest, key => if key = k then some v else lookupA rest key

/-- Replace-or-append insertion (models `HashMap::insert`: the new value
replaces any previous binding of the key). -/
def insertA {α β : Type} [DecidableEq α] : List (α × β) → α → β → List (α × β)
  | [], k, v => [(k, v)]
  | (k0, v0) :: rest, k, v =>
    if k = k0 then (k, v) :: rest else (k0, v0) :: insertA rest k v

theorem lookupA_insertA_self {α β : Type} [DecidableEq α]
    (l : List (α × β)) (k : α) (v : β) : lookupA (insertA l k v) k = some v := by
  induction l with
  | nil => simp [insertA, lookupA]
  | cons hd tl ih =>
    obtain ⟨k0, v0⟩ := hd
    by_cases h : k = k0
    · simp [insertA, h, lookupA]
    · simp [insertA, h, lookupA, ih]

theorem lookupA_insertA_of_ne {α β : Type} [DecidableEq α]
    (l : List (α × β)) (k k1 : α) (v : β) (h : k1 ≠ k) :
    lookupA (insertA l k v) k1 = lookupA l k1 := by
  induction l with
  | nil => simp [insertA, lookupA, h]
  | cons hd tl ih =>
    obtain ⟨k0, v0⟩ := hd
    by_cases hk : k = k0
    · subst hk; simp [insertA, lookupA, h]
    · by_cases hk1 : k1 = k0
      · simp [insertA, hk, lookupA, hk1]
      · simp [insertA, hk, lookupA, hk1, ih]

/-! ## The `Word` data structure

Modelled from the spec: the `Word` type (source file `word.rs` is not part of
the provided sources; spec §3 "Word", §4.1).  A word is a dense array of
symbols, each carrying a token id and a byte length; removed symbols are
tombstoned by setting their length to zero (spec: "Removed symbols are
tombstoned by setting their length to zero and unlinking them"), and the
prev/next links are recovered as the nearest surrounding index whose symbol
is still live. -/

/-- One symbol of a `Word`: a token id together with the number of input
bytes it covers.  A length of `0` marks a tombstoned (removed) symbol. -/
structure WSym where
  id : Nat
  len : Nat
  deriving DecidableEq, Repr

/-- A `Word` is the dense array of symbols. -/
abbrev Word := List WSym

/-- Total number of input bytes covered by a word (tombstones count zero). -/
def wordSum (w : Word) : Nat := (w.map WSym.len).sum

/-- `MergeMap`: pair of ids ↦ (rank, new id), as in the source type alias. -/
abbrev MergeMap := List ((Nat × Nat) × (Nat × Nat))

/-- Is the symbol at index `i` live (present and not tombstoned)? -/
def aliveAt (w : Word) (i : Nat) : Bool :=
  match w[i]? with
  | some s => s.len ≠ 0
  | none => false

/-- Modelled from the spec: the next live index after `i` (the `next` link of
the doubly-linked list over the dense array, spec §3). -/
def nextLive (w : Word) (i : Nat) : Option Nat :=
  match (w.drop (i + 1)).findIdx? (fun s => s.len ≠ 0) with
  | some k => some (i + 1 + k)
  | none => none

/-- Modelled from the spec: the previous live index before `i` (the `prev`
link of the doubly-linked list over the dense array, spec §3). -/
def prevLive (w : Word) (i : Nat) : Option Nat :=
  ((List.range i).filter (fun j => aliveAt w j)).getLast?

/-- Modelled from the spec: one entry of the merge priority queue
(spec §4.1 step 1: "push entry (rank, i, j, new_id)"); the expected pair of
ids is recorded for the staleness check of step 2. -/
structure QEntry where
  rank : Nat
  pos : Nat
  pos2 : Nat
  idL : Nat
  idR : Nat
  newId : Nat
  deriving DecidableEq, Repr

/-- Look up the adjacent pair `(i, j)` in the merge map and build its queue
entry, if the pair is mapped. -/
def pairEntry (mm : MergeMap) (w : Word) (i j : Nat) : Option QEntry :=
  match w[i]?, w[j]? with
  | some si, some sj =>
    match lookupA mm (si.id, sj.id) with
    | some (r, nid) => some ⟨r, i, j, si.id, sj.id, nid⟩
    | none => none
  | _, _ => none

/-- Modelled from the spec (§4.1 step 1): the initial queue holds an entry
for every adjacent pair of live symbols that is mapped in the merge map. -/
def initQueue (mm : MergeMap) (w : Word) : List QEntry :=
  (List.range w.length).filterMap (fun i =>
    if aliveAt w i then
      match nextLive w i with
      | some j => pairEntry mm w i j
      | none => none
    else none)

/-- Priority order of the queue: smallest rank first, ties broken by the
smaller left position (spec §4.1 step 2). -/
def qBetter (a b : QEntry) : Bool :=
  a.rank < b.rank ∨ (a.rank = b.rank ∧ a.pos < b.pos)

/-- The minimal entry of the queue under `qBetter` (first one wins further
ties), or `none` when the queue is empty. -/
def qMin (q : List QEntry) : Option QEntry :=
  q.foldl (fun acc e =>
    match acc with
    | none => some e
    | some m => if qBetter e m then some e else acc) none

/-- Modelled from the spec (§4.1 step 2): an entry is stale unless both
endpoints are live, `j` is still the next live of `i`, and the ids at the two
positions still form the expected pair. -/
def validEntry (w : Word) (e : QEntry) : Bool :=
  aliveAt w e.pos && aliveAt w e.pos2 && (nextLive w e.pos == some e.pos2) &&
    (match w[e.pos]? with | some s => s.id == e.idL | none => false) &&
    (match w[e.pos2]? with | some s => s.id == e.idR | none => false)

/-- Modelled from the spec (§4.1 step 4): applying a merge sets the left
symbol's id to `new_id`, adds the right symbol's length to it, and
tombstones the right symbol (length zero). -/
def applyMerge (w : Word) (e : QEntry) : Word :=
  match w[e.pos]?, w[e.pos2]? with
  | some si, some sj =>
    (w.set e.pos ⟨e.newId, si.len + sj.len⟩).set e.pos2 ⟨sj.id, 0⟩
  | _, _ => w

/-- Modelled from the spec (§4.1 step 4): after a merge at `i`, the
newly-formed adjacent pairs `(prev(i), i)` and `(i, next(i))` are enqueued
when mapped. -/
def newEntries (mm : MergeMap) (w : Word) (i : Nat) : List QEntry :=
  (match prevLive w i with
   | some p => (pairEntry mm w p i).toList
   | none => []) ++
  (match nextLive w i with
   | some n => (pairEntry mm w i n).toList
   | none => [])

/-- Modelled from the spec (§4.1 steps 2–5): the merge loop.  Entries are
popped in `(rank, position)` order, validated, and applied; with dropout
enabled, one boolean draw of the oracle `skips` (modelling `sample < p`) is
consumed per applicable merge, and a `true` draw skips the merge without
re-enqueueing it.  `fuel` bounds the number of iterations; it is always
instantiated large enough (see `mergeAll`). -/
def mergeLoop (mm : MergeMap) (useDropout : Bool) (skips : Nat → Bool) :
    Nat → Nat → List QEntry → Word → Word
  | 0, _, _, w => w
  | fuel + 1, k, q, w =>
    match qMin q with
    | none => w
    | some e =>
      let q1 := q.erase e
      if validEntry w e then
        if useDropout then
          if skips k then mergeLoop mm useDropout skips fuel (k + 1) q1 w
          else
            let w1 := applyMerge w e
            mergeLoop mm useDropout skips fuel (k + 1) (newEntries mm w1 e.pos ++ q1) w1
        else
          let w1 := applyMerge w e
          mergeLoop mm useDropout skips fuel k (newEntries mm w1 e.pos ++ q1) w1
      else mergeLoop mm useDropout skips fuel k q1 w

/-- Modelled from the spec (§4.1 `merge_all`): run the merge loop to
completion.  Dropout `none` or `some 0` disables the dropout draws entirely
(spec §4.1 step 3: "dropout = 0 ... must produce identical results to absent
dropout").  Each applied merge kills one symbol and pushes at most two
entries, while every other iteration shrinks the queue, so
`|initial queue| + 2·|word| + 1` iterations always suffice. -/
def mergeAll (mm : MergeMap) (dropout : Option ℚ) (skips : Nat → Bool)
    (w : Word) : Word :=
  let useD : Bool := match dropout with
    | none => false
    | some p => p ≠ 0
  let q := initQueue mm w
  mergeLoop mm useD skips (q.length + 2 * w.length + 1) 0 q w

/-! ## The BPE model (`src/tokenizers/src/models/bpe/model.rs`) -/

/-- `Vocab`: token string ↦ id (`pub type Vocab = AHashMap<String, u32>`). -/
abbrev Vocab := List (ByteStr × Nat)

/-- `VocabR`: id ↦ token string (`type VocabR = AHashMap<u32, String>`). -/
abbrev VocabR := List (Nat × ByteStr)

/-- The error enum of the BPE module (`bpe::Error`). -/
inductive BpeError where
  | InvalidDropout
  | BadVocabulary
  | BadMerges (line : Nat)
  | MergeTokenOutOfVocabulary (token : ByteStr)
  | UnkTokenOutOfVocabulary (token : ByteStr)
  deriving DecidableEq, Repr

instance {ε α : Type} [DecidableEq ε] [DecidableEq α] :
    DecidableEq (Except ε α) := fun a b =>
  match a, b with
  | .error e1, .error e2 =>
    if h : e1 = e2 then isTrue (by rw [h]) else isFalse (fun hc => h (by injection hc))
  | .ok a1, .ok a2 =>
    if h : a1 = a2 then isTrue (by rw [h]) else isFalse (fun hc => h (by injection hc))
  | .error _, .ok _ => isFalse (fun hc => nomatch hc)
  | .ok _, .error _ => isFalse (fun hc => nomatch hc)

/-- The `BPE` struct (its cache is carried separately as mutable state). -/
structure Model where
  vocab : Vocab
  vocabR : VocabR
  merges : MergeMap
  dropout : Option ℚ
  unkToken : Option ByteStr
  contPrefix : Option ByteStr
  eowSuffix : Option ByteStr
  fuseUnk : Bool
  byteFallback : Bool
  ignoreMerges : Bool

/-- A returned `Token`: id, surface value (the `vocab_r` lookup; `none`
models the panic of the `self.vocab_r[&id]` indexing on a missing id), and
the half-open byte offsets into the input. -/
structure Token where
  id : Nat
  value : Option ByteStr
  offsets : Nat × Nat
  deriving DecidableEq, Repr

/-- The byte-fallback key `<0xNN>` for byte `b` (uppercase hex, width 2),
as produced by `format!("<{b:#04X}>")`, as a byte string. -/
def byteKey (b : Nat) : ByteStr :=
  let hexDigit : Nat → Nat := fun d => if d < 10 then 48 + d else 55 + d
  [60, 48, 120, hexDigit (b / 16), hexDigit (b % 16), 62]

/-- The per-byte fallback lookups of `merge_word` (`s.bytes().map(...)
.collect::<Option<Vec<_>>>()`): all bytes of `s` must resolve. -/
def fallbackIds (vocab : Vocab) : ByteStr → Option (List Nat)
  | [] => some []
  | b :: bs =>
    match lookupA vocab (byteKey b), fallbackIds vocab bs with
    | some i, some is => some (i :: is)
    | _, _ => none

/-- Prefix/suffix decoration of one character span of `merge_word`: prepend
`continuing_subword_prefix` when not first, then append `end_of_word_suffix`
when last. -/
def decorate (M : Model) (isFirst isLast : Bool) (c : ByteStr) : ByteStr :=
  let s1 := if isFirst then c else
    match M.contPrefix with
    | some p => p ++ c
    | none => c
  if isLast then
    match M.eowSuffix with
    | some suf => s1 ++ suf
    | none => s1
  else s1

/-- Flush a pending unknown-token symbol in front of the rest of the word. -/
def flushUnk (unk : Option (Nat × Nat)) (w : Word) : Word :=
  match unk with
  | none => w
  | some (uid, ulen) => ⟨uid, ulen⟩ :: w

/-- The character loop of `BPE::merge_word` (model.rs lines 382–462):
iterate over the character spans, decorate, resolve against the vocab, with
the byte-fallback and UNK paths; `unk` is the pending unknown token.  The
resulting word is the pre-merge symbol sequence. -/
def mwGo (M : Model) : List ByteStr → Bool → Option (Nat × Nat) →
    Except BpeError Word
  | [], _, unk => .ok (flushUnk unk [])
  | c :: rest, isFirst, unk =>
    match lookupA M.vocab (decorate M isFirst rest.isEmpty c) with
    | some id =>
      match mwGo M rest false none with
      | .ok tail => .ok (flushUnk unk (⟨id, c.length⟩ :: tail))
      | .error e => .error e
    | none =>
      match
        (if M.byteFallback then
          fallbackIds M.vocab (decorate M isFirst rest.isEmpty c)
         else none) with
      | some ids =>
        -- fallback succeeded: one length-1 symbol per byte of the
        -- decorated span; the pending unk is left pending (`continue`)
        match mwGo M rest false unk with
        | .ok tail => .ok (ids.map (fun i => ⟨i, 1⟩) ++ tail)
        | .error e => .error e
      | none =>
        match M.unkToken with
        | none => mwGo M rest false unk
        | some ut =>
          match unk, M.fuseUnk with
          | some (uid, ulen), true =>
            mwGo M rest false (some (uid, ulen + c.length))
          | some (uid, ulen), false =>
            match lookupA M.vocab ut with
            | none => .error (.UnkTokenOutOfVocabulary ut)
            | some uidNew =>
              match mwGo M rest false (some (uidNew, c.length)) with
              | .ok tail => .ok (⟨uid, ulen⟩ :: tail)
              | .error e => .error e
          | none, _ =>
            match lookupA M.vocab ut with
            | none => .error (.UnkTokenOutOfVocabulary ut)
            | some uidNew => mwGo M rest false (some (uidNew, c.length))

/-- `BPE::merge_word`: build the pre-merge word from the character spans,
then run `merge_all` with the model's merges and dropout. -/
def mergeWord (M : Model) (skips : Nat → Bool) (chars : List ByteStr) :
    Except BpeError Word :=
  match mwGo M chars true none with
  | .ok w0 => .ok (mergeAll M.merges M.dropout skips w0)
  | .error e => .error e

/-- `BPE::word_to_tokens`: pair each live symbol's id with its running byte
offsets (`get_chars_iter` zipped with `get_offsets_iter`); the surface value
is the `vocab_r` lookup. -/
def wordToTokens (M : Model) (pos : Nat) : Word → List Token
  | [] => []
  | s :: rest =>
    if s.len = 0 then wordToTokens M pos rest
    else ⟨s.id, lookupA M.vocabR s.id, (pos, pos + s.len)⟩ ::
      wordToTokens M (pos + s.len) rest

/-- The tokenization cache, keyed by the input (as its character spans) and
holding the memoized post-merge `Word` (spec §4.2; `cache.rs` is not part of
the provided sources).  `none` models a model built with cache capacity 0. -/
abbrev CacheT := List (List ByteStr × Word)

/-- `self.cache.as_ref().and_then(|c| c.get(sequence))`. -/
def cacheGet (cache : Option CacheT) (key : List ByteStr) : Option Word :=
  match cache with
  | some c => lookupA c key
  | none => none

/-- `BPE::tokenize_with_cache` (model.rs lines 475–496): the `ignore_merges`
shortcut, then the cache consultation, then `merge_word` with insertion of
the resulting word when the input is shorter than `MAX_LENGTH` (`maxLen`). -/
def tokenizeWithCache (M : Model) (maxLen : Nat) (skips : Nat → Bool)
    (cache : Option CacheT) (chars : List ByteStr) :
    Except BpeError (List Token) × Option CacheT :=
  let sBytes := chars.flatten
  match (if M.ignoreMerges then lookupA M.vocab sBytes else none) with
  | some id => (.ok [⟨id, some sBytes, (0, sBytes.length)⟩], cache)
  | none =>
    match cacheGet cache chars with
    | some hit => (.ok (wordToTokens M 0 hit), cache)
    | none =>
      match mergeWord M skips chars with
      | .error e => (.error e, cache)
      | .ok w =>
        let ret := wordToTokens M 0 w
        let cache1 := match cache with
          | some c =>
            if sBytes.length < maxLen then some (insertA c chars w)
            else some c
          | none => none
        (.ok ret, cache1)

/-- `BPE::tokenize` (model.rs lines 510–521): empty input short-circuits;
with dropout `None` or `Some 0.0` the cached path is taken; otherwise a
fresh word is built with no cache involvement. -/
def tokenize (M : Model) (maxLen : Nat) (skips : Nat → Bool)
    (cache : Option CacheT) (chars : List ByteStr) :
    Except BpeError (List Token) × Option CacheT :=
  let sBytes := chars.flatten
  if sBytes.isEmpty then (.ok [], cache)
  else if M.dropout = none ∨ M.dropout = some 0 then
    tokenizeWithCache M maxLen skips cache chars
  else
    match mergeWord M skips chars with
    | .ok w => (.ok (wordToTokens M 0 w), cache)
    | .error e => (.error e, cache)

/-- `Model::token_to_id`. -/
def tokenToId (M : Model) (token : ByteStr) : Option Nat :=
  lookupA M.vocab token

/-- `Model::id_to_token`. -/
def idToToken (M : Model) (id : Nat) : Option ByteStr :=
  lookupA M.vocabR id

/-! ## The builder (`BpeBuilder::build`, model.rs lines 142–209) -/

/-- The builder configuration (`Config`), without the `files` field (file
I/O is out of scope of the embedding) and without the cache capacity (the
cache is carried separately as the mutable state of `tokenize`). -/
structure Config where
  vocab : Vocab
  merges : List (ByteStr × ByteStr)
  dropout : Option ℚ
  unkToken : Option ByteStr
  contPrefix : Option ByteStr
  eowSuffix : Option ByteStr
  fuseUnk : Bool
  byteFallback : Bool
  ignoreMerges : Bool

/-- The outcome of `build()`: success, an `Error`, or a Rust panic (raised
by the unchecked slice `&b[prefix_len..]`). -/
inductive BuildOutcome where
  | ok (m : Model)
  | err (e : BpeError)
  | panicked

/-- Rust `str::is_char_boundary` on a byte string: index 0 and the total
length are boundaries; otherwise the byte at the index must not be a UTF-8
continuation byte (`0x80..0xC0`). -/
def isCharBoundary (b : ByteStr) (i : Nat) : Bool :=
  if i = 0 then true
  else match b[i]? with
    | none => i == b.length
    | some v => decide (v < 128 ∨ 192 ≤ v)

/-- The slice `&b[i..]`: `some` of the byte tail when `i` is a char
boundary of `b`, `none` when the indexing panics. -/
def sliceFrom (b : ByteStr) (i : Nat) : Option ByteStr :=
  if isCharBoundary b i then some (b.drop i) else none

/-- Intermediate result of the merge-map construction. -/
inductive MMRes where
  | ok (mm : MergeMap)
  | err (e : BpeError)
  | panicked
  deriving Repr

/-- The merge-map construction of `build()` (model.rs lines 174–192): for
the merge at rank `i`, look up `a`, then `b`, then slice `b[prefix_len..]`
(a panic when not a char boundary), then look up the concatenation; collect
into the map where a later binding of the same id pair replaces an earlier
one. -/
def buildMergeMap (vocab : Vocab) (plen : Nat) :
    Nat → MergeMap → List (ByteStr × ByteStr) → MMRes
  | _, acc, [] => .ok acc
  | i, acc, (a, b) :: rest =>
    match lookupA vocab a with
    | none => .err (.MergeTokenOutOfVocabulary a)
    | some aId =>
      match lookupA vocab b with
      | none => .err (.MergeTokenOutOfVocabulary b)
      | some bId =>
        match sliceFrom b plen with
        | none => .panicked
        | some bTail =>
          let newTok := a ++ bTail
          match lookupA vocab newTok with
          | none => .err (.MergeTokenOutOfVocabulary newTok)
          | some newId =>
            buildMergeMap vocab plen (i + 1)
              (insertA acc (aId, bId) (i % 2 ^ 32, newId)) rest

/-- The inverse vocabulary of `build()` (model.rs lines 157–162):
`vocab.iter().map(|(key, val)| (*val, key)).collect()`; with duplicate ids
the later insertion replaces the earlier one. -/
def buildVocabR (vocab : Vocab) : VocabR :=
  vocab.foldl (fun acc kv => insertA acc kv.2 kv.1) []

/-- `prefix_len`: the byte length of `continuing_subword_prefix` if set. -/
def prefixLen (cfg : Config) : Nat :=
  match cfg.contPrefix with
  | some p => p.length
  | none => 0

/-- `BpeBuilder::build` (model.rs lines 142–209): validate the dropout
range, compute the inverse vocab, and build the merge map. -/
def build (cfg : Config) : BuildOutcome :=
  let dropoutBad : Bool := match cfg.dropout with
    | some p => decide (p < 0 ∨ 1 < p)
    | none => false
  if dropoutBad then .err .InvalidDropout
  else
    match buildMergeMap cfg.vocab (prefixLen cfg) 0 [] cfg.merges with
    | .err e => .err e
    | .panicked => .panicked
    | .ok mm =>
      .ok { vocab := cfg.vocab
            vocabR := buildVocabR cfg.vocab
            merges := mm
            dropout := cfg.dropout
            unkToken := cfg.unkToken
            contPrefix := cfg.contPrefix
            eowSuffix := cfg.eowSuffix
            fuseUnk := cfg.fuseUnk
            byteFallback := cfg.byteFallback
            ignoreMerges := cfg.ignoreMerges }

/-- The configuration of `BpeBuilder::default()` with
`vocab_and_merges(vocab, merges)` applied — exactly what `BPE::new` builds
from. -/
def newConfig (vocab : Vocab) (merges : List (ByteStr × ByteStr)) : Config :=
  { vocab := vocab, merges := merges, dropout := none, unkToken := none,
    contPrefix := none, eowSuffix := none, fuseUnk := false,
    byteFallback := false, ignoreMerges := false }

/-- `BPE::new` (model.rs lines 311–317): build from the default builder and
`unwrap()` the result; `none` models the panic of `unwrap` on an error (and
the propagated panic of `build` itself).  There is no error return path. -/
def newBPE (vocab : Vocab) (merges : List (ByteStr × ByteStr)) :
    Option Model :=
  match build (newConfig vocab merges) with
  | .ok m => some m
  | .err _ => none
  | .panicked => none

/-! ## Vocab JSON reading (`BPE::read_file`, model.rs lines 325–344) -/

/-- A serde_json number: an unsigned integer, a negative integer, or a
float (mirroring serde's internal `N::PosInt`/`N::NegInt`/`N::Float`; the
float payload is irrelevant here, only its tag matters for `as_u64`). -/
inductive JNum where
  | posInt (n : Nat)
  | negInt (n : Int)
  | float (q : ℚ)
  deriving DecidableEq, Repr

/-- `serde_json::Number::as_u64`: only defined on unsigned integers. -/
def JNum.asU64 : JNum → Option Nat
  | .posInt n => some n
  | _ => none

/-- A serde_json `Value`. -/
inductive Json where
  | null
  | bool (b : Bool)
  | num (n : JNum)
  | str (s : String)
  | arr (l : List Json)
  | obj (l : List (String × Json))
  deriving Repr

/-- The entry loop of the vocab reading: a `Number` value must convert with
`as_u64` (else `BadVocabulary`) and is narrowed `as u32`; any non-number
value falls through the `if let` and the entry is skipped. -/
def readVocabEntries : List (String × Json) → List (String × Nat) →
    Except BpeError (List (String × Nat))
  | [], acc => .ok acc
  | (token, v) :: rest, acc =>
    match v with
    | .num n =>
      match n.asU64 with
      | some u => readVocabEntries rest (insertA acc token (u % 2 ^ 32))
      | none => .error .BadVocabulary
    | _ => readVocabEntries rest acc

/-- The vocab-JSON part of `BPE::read_file` (model.rs lines 332–344): the
parsed document must be an object, whose entries are processed by
`readVocabEntries`. -/
def readVocabJson : Json → Except BpeError (List (String × Nat))
  | .obj m => readVocabEntries m []
  | _ => .error .BadVocabulary

/-! ## Merges parsing (`convert_merges_to_hashmap`, model.rs 286–303) -/

/-- The byte-wise content of the string literal `#version`. -/
def versionHeader : List Char := ['#', 'v', 'e', 'r', 's', 'i', 'o', 'n']

/-- Rust `str::split(' ')` on a list of characters: splitting on every
single space character, keeping empty parts (so the empty string yields one
empty part). -/
def splitOnSpace : List Char → List (List Char)
  | [] => [[]]
  | c :: rest =>
    if c = ' ' then [] :: splitOnSpace rest
    else
      match splitOnSpace rest with
      | h :: t => (c :: h) :: t
      | [] => [[c]]

/-- The enumerated line loop of `convert_merges_to_hashmap`: each line must
split into exactly two parts, else `BadMerges(rank + 1)`. -/
def convertMergesGo : Nat → List (List Char) →
    Except BpeError (List (List Char × List Char))
  | _, [] => .ok []
  | rank, line :: rest =>
    match splitOnSpace line with
    | [a, b] =>
      match convertMergesGo (rank + 1) rest with
      | .ok tail => .ok ((a, b) :: tail)
      | .error e => .error e
    | _ => .error (.BadMerges (rank + 1))

/-- `convert_merges_to_hashmap`: filter out every line starting with
`#version`, then parse the remaining lines in order. -/
def convertMerges (lines : List (List Char)) :
    Except BpeError (List (List Char × List Char)) :=
  convertMergesGo 0 (lines.filter (fun l => !(versionHeader.isPrefixOf l)))

/-! ## Byte accounting of the merge loop -/

theorem wordSum_nil : wordSum [] = 0 := rfl

theorem wordSum_cons (s : WSym) (w : Word) :
    wordSum (s :: w) = s.len + wordSum w := by
  simp [wordSum]

theorem wordSum_append (v w : Word) :
    wordSum (v ++ w) = wordSum v + wordSum w := by
  simp [wordSum]

theorem wordSum_set (w : Word) (i : Nat) (s a : WSym) (h : w[i]? = some s) :
    wordSum (w.set i a) + s.len = wordSum w + a.len := by
  induction w generalizing i with
  | nil => simp at h
  | cons hd tl ih =>
    cases i with
    | zero =>
      simp at h
      subst h
      simp [wordSum_cons]
      omega
    | succ n =>
      simp at h
      have := ih n h
      simp [wordSum_cons]
      omega

theorem nextLive_lt (w : Word) (i j : Nat) (h : nextLive w i = some j) :
    i < j := by
  unfold nextLive at h
  cases hf : (w.drop (i + 1)).findIdx? (fun s => s.len ≠ 0) with
  | none => rw [hf] at h; simp at h
  | some k => rw [hf] at h; simp at h; omega

theorem aliveAt_some (w : Word) (i : Nat) (h : aliveAt w i = true) :
    ∃ s, w[i]? = some s ∧ s.len ≠ 0 := by
  unfold aliveAt at h
  cases hs : w[i]? with
  | none => rw [hs] at h; simp at h
  | some s => exact ⟨s, rfl, by rw [hs] at h; simpa using h⟩

theorem applyMerge_sum (w : Word) (e : QEntry) (h : validEntry w e = true) :
    wordSum (applyMerge w e) = wordSum w := by
  simp only [validEntry, Bool.and_eq_true] at h
  obtain ⟨⟨⟨⟨h1, h2⟩, h3⟩, _⟩, _⟩ := h
  obtain ⟨si, hsi, _⟩ := aliveAt_some w e.pos h1
  obtain ⟨sj, hsj, _⟩ := aliveAt_some w e.pos2 h2
  have hlt : e.pos < e.pos2 := by
    apply nextLive_lt w e.pos e.pos2
    simpa using h3
  have hne : e.pos ≠ e.pos2 := Nat.ne_of_lt hlt
  have happly : applyMerge w e =
      (w.set e.pos ⟨e.newId, si.len + sj.len⟩).set e.pos2 ⟨sj.id, 0⟩ := by
    simp [applyMerge, hsi, hsj]
  rw [happly]
  have hget : (w.set e.pos ⟨e.newId, si.len + sj.len⟩)[e.pos2]? = some sj := by
    rw [List.getElem?_set_ne hne]; exact hsj
  have s1 := wordSum_set w e.pos si ⟨e.newId, si.len + sj.len⟩ hsi
  have s2 := wordSum_set (w.set e.pos ⟨e.newId, si.len + sj.len⟩) e.pos2 sj
    ⟨sj.id, 0⟩ hget
  simp at s1 s2
  omega

theorem mergeLoop_sum (mm : MergeMap) (useD : Bool) (skips : Nat → Bool) :
    ∀ fuel k q w, wordSum (mergeLoop mm useD skips fuel k q w) = wordSum w := by
  intro fuel
  induction fuel with
  | zero => intro k q w; rfl
  | succ n ih =>
    intro k q w
    unfold mergeLoop
    cases hq : qMin q with
    | none => rfl
    | some e =>
      by_cases hv : validEntry w e
      · cases useD with
        | false => simp only [hv, if_true, Bool.false_eq_true, if_false]
                   rw [ih, applyMerge_sum w e hv]
        | true =>
          by_cases hs : skips k
          · simp only [hv, if_true, hs]
            exact ih ..
          · simp only [hv, if_true, hs, Bool.false_eq_true, if_false]
            rw [ih, applyMerge_sum w e hv]
      · simp only [hv, Bool.false_eq_true, if_false]
        exact ih ..

theorem mergeAll_sum (mm : MergeMap) (d : Option ℚ) (skips : Nat → Bool)
    (w : Word) : wordSum (mergeAll mm d skips w) = wordSum w := by
  unfold mergeAll
  exact mergeLoop_sum ..

/-- Total byte length of a list of character spans. -/
def charsLen (chars : List ByteStr) : Nat := (chars.map List.length).sum

/-- Byte length of a pending unknown token. -/
def unkLen : Option (Nat × Nat) → Nat
  | none => 0
  | some (_, l) => l

theorem wordSum_flushUnk (unk : Option (Nat × Nat)) (w : Word) :
    wordSum (flushUnk unk w) = unkLen unk + wordSum w := by
  cases unk with
  | none => simp [flushUnk, unkLen]
  | some p => obtain ⟨uid, ulen⟩ := p; simp [flushUnk, unkLen, wordSum_cons]

theorem fallbackIds_length (vocab : Vocab) :
    ∀ s ids, fallbackIds vocab s = some ids → ids.length = s.length := by
  intro s
  induction s with
  | nil => intro ids h; simp [fallbackIds] at h; simp [← h]
  | cons b bs ih =>
    intro ids h
    unfold fallbackIds at h
    cases h1 : lookupA vocab (byteKey b) with
    | none => rw [h1] at h; simp at h
    | some i =>
      rw [h1] at h
      cases h2 : fallbackIds vocab bs with
      | none => rw [h2] at h; simp at h
      | some is =>
        rw [h2] at h
        simp at h
        subst h
        simp [ih is h2]

theorem wordSum_map_one (ids : List Nat) :
    wordSum (ids.map (fun i => ⟨i, 1⟩)) = ids.length := by
  induction ids with
  | nil => rfl
  | cons i is ih => simp [wordSum_cons, ih]; omega

theorem decorate_id (M : Model) (hp : M.contPrefix = none)
    (hs : M.eowSuffix = none) (isFirst isLast : Bool) (c : ByteStr) :
    decorate M isFirst isLast c = c := by
  cases isFirst <;> cases isLast <;> simp [decorate, hp, hs]

/-- Byte accounting of the character loop of `merge_word`: when an unknown
token is configured and the byte-fallback path cannot add decoration bytes
(either `byte_fallback` is off, or neither a continuing-subword prefix nor
an end-of-word suffix is set), the produced symbols account for exactly the
bytes of the remaining characters plus the pending unknown token. -/
theorem mwGo_sum (M : Model) (hu : M.unkToken.isSome = true)
    (hfb : M.byteFallback = false ∨
      (M.contPrefix = none ∧ M.eowSuffix = none)) :
    ∀ chars isFirst unk w, mwGo M chars isFirst unk = .ok w →
      wordSum w = charsLen chars + unkLen unk := by
  intro chars
  induction chars with
  | nil =>
    intro isFirst unk w h
    simp [mwGo] at h
    subst h
    simp [wordSum_flushUnk, charsLen, wordSum_nil]
  | cons c rest ih =>
    intro isFirst unk w h
    unfold mwGo at h
    cases hlook : lookupA M.vocab (decorate M isFirst rest.isEmpty c) with
    | some id =>
      rw [hlook] at h
      cases htail : mwGo M rest false none with
      | error e => rw [htail] at h; simp at h
      | ok tail =>
        rw [htail] at h
        simp at h
        subst h
        have := ih false none tail htail
        simp [wordSum_flushUnk, wordSum_cons, charsLen, unkLen] at *
        omega
    | none =>
      rw [hlook] at h
      cases hids : (if M.byteFallback then
          fallbackIds M.vocab (decorate M isFirst rest.isEmpty c) else none) with
      | some ids =>
        rw [hids] at h
        cases htail : mwGo M rest false unk with
        | error e => rw [htail] at h; simp at h
        | ok tail =>
          rw [htail] at h
          simp at h
          subst h
          have hfbv : M.byteFallback = true := by
            by_contra hc
            simp at hc
            rw [hc] at hids
            simp at hids
          have hdec : decorate M isFirst rest.isEmpty c = c := by
            rcases hfb with hfb1 | ⟨hp, hs⟩
            · rw [hfb1] at hfbv; exact absurd hfbv (by simp)
            · exact decorate_id M hp hs ..
          have hlen : ids.length = c.length := by
            rw [hfbv] at hids
            simp only [if_true] at hids
            rw [hdec] at hids
            exact fallbackIds_length M.vocab c ids hids
          have := ih false unk tail htail
          simp [wordSum_append, wordSum_map_one, hlen, charsLen] at *
          omega
      | none =>
        rw [hids] at h
        cases hut : M.unkToken with
        | none => rw [hut] at hu; simp at hu
        | some ut =>
          rw [hut] at h
          simp only [] at h
          match unk with
          | some (uid, ulen) =>
            cases hfu : M.fuseUnk with
            | true =>
              rw [hfu] at h
              simp only [] at h
              have := ih false (some (uid, ulen + c.length)) w h
              simp [charsLen, unkLen] at *
              omega
            | false =>
              rw [hfu] at h
              simp only [] at h
              cases hun : lookupA M.vocab ut with
              | none => rw [hun] at h; simp at h
              | some uidNew =>
                rw [hun] at h
                simp only [] at h
                cases htail : mwGo M rest false (some (uidNew, c.length)) with
                | error e => rw [htail] at h; simp at h
                | ok tail =>
                  rw [htail] at h
                  simp at h
                  subst h
                  have := ih false (some (uidNew, c.length)) tail htail
                  simp [wordSum_cons, charsLen, unkLen] at *
                  omega
          | none =>
            cases hun : lookupA M.vocab ut with
            | none => rw [hun] at h; simp at h
            | some uidNew =>
              rw [hun] at h
              simp only [] at h
              have := ih false (some (uidNew, c.length)) w h
              simp [charsLen, unkLen] at *
              omega

/-- Byte accounting of `merge_word`: under the hypotheses of `mwGo_sum`,
the resulting word covers exactly the bytes of the input. -/
theorem mergeWord_sum (M : Model) (skips : Nat → Bool)
    (hu : M.unkToken.isSome = true)
    (hfb : M.byteFallback = false ∨
      (M.contPrefix = none ∧ M.eowSuffix = none))
    (chars : List ByteStr) (w : Word)
    (h : mergeWord M skips chars = .ok w) :
    wordSum w = charsLen chars := by
  unfold mergeWord at h
  cases h0 : mwGo M chars true none with
  | error e => rw [h0] at h; simp at h
  | ok w0 =>
    rw [h0] at h
    simp at h
    subst h
    rw [mergeAll_sum]
    have := mwGo_sum M hu hfb chars true none w0 h0
    simpa [unkLen] using this

/-- The byte span `s[offsets.0..offsets.1]` of a token. -/
def spanOf (s : ByteStr) (t : Token) : ByteStr :=
  (s.drop t.offsets.1).take (t.offsets.2 - t.offsets.1)

/-- Concatenation of the byte spans of a token list, in order. -/
def spansConcat (s : ByteStr) (ts : List Token) : ByteStr :=
  (ts.map (spanOf s)).flatten

theorem wordToTokens_extract (M : Model) (s : ByteStr) :
    ∀ w pos, spansConcat s (wordToTokens M pos w) =
      (s.drop pos).take (wordSum w) := by
  intro w
  induction w with
  | nil => intro pos; simp [wordToTokens, spansConcat, wordSum]
  | cons sym rest ih =>
    intro pos
    by_cases h : sym.len = 0
    · rw [wordToTokens]
      simp only [h, if_true]
      rw [ih pos, wordSum_cons, h, Nat.zero_add]
    · rw [wordToTokens]
      simp only [h, if_false]
      have hspan : spanOf s ⟨sym.id, lookupA M.vocabR sym.id,
          (pos, pos + sym.len)⟩ = (s.drop pos).take sym.len := by
        simp [spanOf]
      rw [wordSum_cons, List.take_add]
      unfold spansConcat at *
      simp only [List.map_cons, List.flatten_cons, hspan, ih (pos + sym.len)]
      have hdd : s.drop (pos + sym.len) = (s.drop pos).drop sym.len := by
        rw [List.drop_drop]
      rw [hdd]

/-- Spans of the whole word, from offset 0, when the word covers all of
`s`: the concatenation rebuilds `s`. -/
theorem wordToTokens_covers (M : Model) (s : ByteStr) (w : Word)
    (h : wordSum w = s.length) :
    spansConcat s (wordToTokens M 0 w) = s := by
  rw [wordToTokens_extract, h]
  simp

/-- Coherence of a cache value: every stored word is the `merge_word`
result of its key.  (`tokenize` only consults the cache on the
dropout-free path, where the dropout oracle is irrelevant.) -/
def cacheOk (M : Model) (cache : Option CacheT) : Prop :=
  ∀ key w, cacheGet cache key = some w →
    mergeWord M (fun _ => false) key = .ok w

/-- With dropout disabled the merge loop never consults the skip oracle. -/
theorem mergeLoop_skips_irrel (mm : MergeMap) (s1 s2 : Nat → Bool) :
    ∀ fuel k1 k2 q w, mergeLoop mm false s1 fuel k1 q w =
      mergeLoop mm false s2 fuel k2 q w := by
  intro fuel
  induction fuel with
  | zero => intro k1 k2 q w; rfl
  | succ n ih =>
    intro k1 k2 q w
    unfold mergeLoop
    cases qMin q with
    | none => rfl
    | some e =>
      by_cases hv : validEntry w e
      · simp only [hv, if_true, Bool.false_eq_true, if_false]
        exact ih ..
      · simp only [hv, Bool.false_eq_true, if_false]
        exact ih ..

/-- With dropout `none` or `0.0`, `merge_all` (and hence `merge_word`) is
independent of the random draws. -/
theorem mergeWord_skips_irrel (M : Model) (s1 s2 : Nat → Bool)
    (hd : M.dropout = none ∨ M.dropout = some 0) (chars : List ByteStr) :
    mergeWord M s1 chars = mergeWord M s2 chars := by
  unfold mergeWord
  cases mwGo M chars true none with
  | error e => rfl
  | ok w0 =>
    simp only []
    unfold mergeAll
    rcases hd with hd | hd <;> rw [hd] <;> simp only []
    · rw [mergeLoop_skips_irrel]
    · have : (decide ¬(0 : ℚ) = 0) = false := by simp
      rw [this, mergeLoop_skips_irrel]

theorem flatten_charsLen (chars : List ByteStr) :
    chars.flatten.length = charsLen chars := by
  simp [charsLen]

/-- C1 (amended): offset coverage for models that drop no character — with
an unknown token configured and no decoration bytes reachable from the
byte-fallback path, every successful `tokenize` returns tokens whose byte
spans concatenate to the input. -/
theorem tokenize_offset_coverage (M : Model) (maxLen : Nat)
    (skips : Nat → Bool) (cache : Option CacheT) (chars : List ByteStr)
    (toks : List Token) (cache1 : Option CacheT)
    (hu : M.unkToken.isSome = true)
    (hfb : M.byteFallback = false ∨
      (M.contPrefix = none ∧ M.eowSuffix = none))
    (hc : cacheOk M cache)
    (h : tokenize M maxLen skips cache chars = (.ok toks, cache1)) :
    spansConcat chars.flatten toks = chars.flatten := by
  unfold tokenize at h
  simp only [] at h
  by_cases he : chars.flatten.isEmpty
  · rw [if_pos he] at h
    simp at h
    obtain ⟨h1, _⟩ := h
    subst h1
    rw [List.isEmpty_iff] at he
    simp [spansConcat, he]
  · rw [if_neg he] at h
    by_cases hd : M.dropout = none ∨ M.dropout = some 0
    · rw [if_pos hd] at h
      unfold tokenizeWithCache at h
      simp only [] at h
      cases hig : (if M.ignoreMerges then lookupA M.vocab chars.flatten
          else none) with
      | some id =>
        rw [hig] at h
        simp only [] at h
        simp at h
        obtain ⟨h1, _⟩ := h
        subst h1
        simp [spansConcat, spanOf]
      | none =>
        rw [hig] at h
        simp only [] at h
        cases hhit : cacheGet cache chars with
        | some hit =>
          rw [hhit] at h
          simp only [] at h
          simp at h
          obtain ⟨h1, _⟩ := h
          subst h1
          have hmw := hc chars hit hhit
          have hsum := mergeWord_sum M (fun _ => false) hu hfb chars hit hmw
          exact wordToTokens_covers M chars.flatten hit
            (by rw [hsum, flatten_charsLen])
        | none =>
          rw [hhit] at h
          simp only [] at h
          cases hmw : mergeWord M skips chars with
          | error e => rw [hmw] at h; simp at h
          | ok w =>
            rw [hmw] at h
            simp only [] at h
            simp at h
            obtain ⟨h1, _⟩ := h
            subst h1
            have hsum := mergeWord_sum M skips hu hfb chars w hmw
            exact wordToTokens_covers M chars.flatten w
              (by rw [hsum, flatten_charsLen])
    · rw [if_neg hd] at h
      cases hmw : mergeWord M skips chars with
      | error e => rw [hmw] at h; simp at h
      | ok w =>
        rw [hmw] at h
        simp only [] at h
        simp at h
        obtain ⟨h1, _⟩ := h
        subst h1
        have hsum := mergeWord_sum M skips hu hfb chars w hmw
        exact wordToTokens_covers M chars.flatten w
          (by rw [hsum, flatten_charsLen])

/-- With dropout disabled, the token list returned by `tokenize` does not
depend on the cache state (given coherence) nor on the random draws, and
coherence of the cache is preserved by the call. -/
theorem tokenize_cache_irrel (M : Model) (maxLen : Nat)
    (s1 s2 : Nat → Bool) (cache : Option CacheT) (chars : List ByteStr)
    (hd : M.dropout = none ∨ M.dropout = some 0) (hc : cacheOk M cache) :
    (tokenize M maxLen s1 cache chars).fst =
      (tokenize M maxLen s2 none chars).fst ∧
    cacheOk M (tokenize M maxLen s1 cache chars).snd := by
  unfold tokenize
  simp only []
  by_cases he : chars.flatten.isEmpty
  · simp only [if_pos he]
    exact ⟨by trivial, hc⟩
  · simp only [if_neg he, if_pos hd]
    unfold tokenizeWithCache
    simp only []
    cases hig : (if M.ignoreMerges then lookupA M.vocab chars.flatten
        else none) with
    | some id => exact ⟨by trivial, hc⟩
    | none =>
      simp only []
      have hnone : cacheGet none chars = (none : Option Word) := rfl
      rw [hnone]
      simp only []
      cases hhit : cacheGet cache chars with
      | some hit =>
        simp only []
        have hmw0 := hc chars hit hhit
        have hmw2 : mergeWord M s2 chars = .ok hit := by
          rw [mergeWord_skips_irrel M s2 (fun _ => false) hd chars]; exact hmw0
        rw [hmw2]
        exact ⟨by trivial, hc⟩
      | none =>
        simp only []
        have hirr : mergeWord M s1 chars = mergeWord M s2 chars :=
          mergeWord_skips_irrel M s1 s2 hd chars
        cases hmw : mergeWord M s1 chars with
        | error e =>
          rw [hmw] at hirr
          rw [← hirr]
          exact ⟨by trivial, hc⟩
        | ok w =>
          rw [hmw] at hirr
          rw [← hirr]
          simp only []
          refine ⟨by trivial, ?_⟩
          have hmwf : mergeWord M (fun _ => false) chars = .ok w := by
            rw [mergeWord_skips_irrel M (fun _ => false) s1 hd chars]; exact hmw
          cases cache with
          | none => intro key w2 hk; simp [cacheGet] at hk
          | some c =>
            simp only []
            by_cases hlen : chars.flatten.length < maxLen
            · rw [if_pos hlen]
              intro key w2 hk
              simp only [cacheGet] at hk
              by_cases hkey : key = chars
              · subst hkey
                rw [lookupA_insertA_self] at hk
                cases hk
                exact hmwf
              · rw [lookupA_insertA_of_ne c chars key w hkey] at hk
                exact hc key w2 hk
            · rw [if_neg hlen]
              exact hc


/-! ## Claim C1 -/

/-- Example model for witnesses: vocab `a ↦ 0`, `unk ↦ 1`, unknown token
configured, no decoration, no fallback. -/
def modelEx : Model :=
  { vocab := [([97], 0), ([117, 110, 107], 1)],
    vocabR := [(0, [97]), (1, [117, 110, 107])], merges := [],
    dropout := none, unkToken := some [117, 110, 107], contPrefix := none,
    eowSuffix := none, fuseUnk := false, byteFallback := false,
    ignoreMerges := false }

/-- C1 witness: on the concrete model `modelEx` and input `"a"`, the
hypotheses of `tokenize_offset_coverage` hold and the returned spans
rebuild the input. -/
theorem tokenize_offset_coverage_witness :
    spansConcat (List.flatten [[97]]) [⟨0, some [97], (0, 1)⟩] =
      List.flatten [[97]] :=
  tokenize_offset_coverage modelEx 256 (fun _ => false) none [[97]]
    [⟨0, some [97], (0, 1)⟩] none rfl (Or.inl rfl)
    (by intro key w h; simp [cacheGet] at h) rfl

/-- Model with an empty vocabulary and no unknown token: tokenizing drops
every character silently. -/
def modelDrop : Model :=
  { vocab := [], vocabR := [], merges := [], dropout := none,
    unkToken := none, contPrefix := none, eowSuffix := none,
    fuseUnk := false, byteFallback := false, ignoreMerges := false }

/-- C1 counterexample to the claim as stated: on a model with no unknown
token and an empty vocabulary, `tokenize("a")` SUCCEEDS with an empty token
list, whose concatenated spans are empty and do not reproduce the input
byte `97`. -/
theorem tokenize_offset_coverage_cex :
    tokenize modelDrop 256 (fun _ => false) none [[97]] = (.ok [], none) ∧
    spansConcat (List.flatten [[97]]) [] ≠ List.flatten [[97]] :=
  ⟨rfl, by decide⟩

/-! ## Claim C4 -/

/-- C4: determinism without dropout — with dropout `None` or `0.0` and a
coherent cache, a second `tokenize` call on the cache state left by a first
call (even with different random draws) returns the identical token list. -/
theorem tokenize_deterministic (M : Model) (maxLen : Nat)
    (s1 s2 : Nat → Bool) (cache : Option CacheT) (chars : List ByteStr)
    (hd : M.dropout = none ∨ M.dropout = some 0) (hc : cacheOk M cache) :
    (tokenize M maxLen s2 (tokenize M maxLen s1 cache chars).snd chars).fst =
      (tokenize M maxLen s1 cache chars).fst := by
  have hA := tokenize_cache_irrel M maxLen s1 (fun _ => false) cache chars hd hc
  have hB := tokenize_cache_irrel M maxLen s2 (fun _ => false)
    (tokenize M maxLen s1 cache chars).snd chars hd hA.2
  rw [hA.1, hB.1]

/-- C4 witness: two calls on `modelEx` with an (empty but present) cache,
the second consuming the cache state of the first, agree. -/
theorem tokenize_deterministic_witness :
    (tokenize modelEx 256 (fun _ => true)
        (tokenize modelEx 256 (fun _ => false) (some []) [[97]]).snd
        [[97]]).fst =
      (tokenize modelEx 256 (fun _ => false) (some []) [[97]]).fst :=
  tokenize_deterministic modelEx 256 (fun _ => false) (fun _ => true)
    (some []) [[97]] (Or.inl rfl)
    (by intro key w h; simp [cacheGet, lookupA] at h)

/-! ## Claim C3 -/

/-- C3 (amended): the `ignore_merges` shortcut applies on the dropout-free
path: when dropout is `None` or `0.0`, the input is non-empty and is a
vocab key as a whole, `tokenize` returns the single whole-sequence token,
for any cache state. -/
theorem ignore_merges_shortcut (M : Model) (maxLen : Nat)
    (skips : Nat → Bool) (cache : Option CacheT) (chars : List ByteStr)
    (id : Nat)
    (hd : M.dropout = none ∨ M.dropout = some 0)
    (him : M.ignoreMerges = true)
    (hne : chars.flatten ≠ [])
    (hlook : lookupA M.vocab chars.flatten = some id) :
    (tokenize M maxLen skips cache chars).fst =
      .ok [⟨id, some chars.flatten, (0, chars.flatten.length)⟩] := by
  unfold tokenize
  simp only []
  rw [if_neg (by simpa using hne), if_pos hd]
  unfold tokenizeWithCache
  simp only [him, if_true, hlook]

/-- C3 witness: `modelIgn` has `ignore_merges` and maps the whole input
`"ab"` to id 0; with dropout absent the shortcut fires. -/
def modelIgn : Model :=
  { vocab := [([97, 98], 0)], vocabR := [(0, [97, 98])], merges := [],
    dropout := none, unkToken := none, contPrefix := none, eowSuffix := none,
    fuseUnk := false, byteFallback := false, ignoreMerges := true }

theorem ignore_merges_shortcut_witness :
    (tokenize modelIgn 256 (fun _ => false) none [[97], [98]]).fst =
      .ok [⟨0, some (List.flatten [[97], [98]]),
        (0, (List.flatten [[97], [98]]).length)⟩] :=
  ignore_merges_shortcut modelIgn 256 (fun _ => false) none [[97], [98]] 0
    (Or.inl rfl) rfl (by decide) rfl

/-- C3 counterexample to the claim as stated: with dropout `0.5` the code
takes the fresh-word path of `tokenize`, which performs NO `ignore_merges`
check — on a model whose vocab contains the whole sequence `"ab"` but not
its characters, the result is the empty token list, not the single
whole-sequence token demanded by the claim. -/
theorem ignore_merges_shortcut_cex :
    (tokenize { modelIgn with dropout := some (Rat.mk' 1 2) } 256
        (fun _ => false) none [[97], [98]]).fst = .ok [] ∧
    (Except.ok [] : Except BpeError (List Token)) ≠
      .ok [⟨0, some [97, 98], (0, 2)⟩] :=
  ⟨by decide, fun h => by simp at h⟩

/-! ## Claim C2 -/

theorem pairEntry_nil (w : Word) (i j : Nat) : pairEntry [] w i j = none := by
  unfold pairEntry
  cases w[i]? <;> cases w[j]? <;> simp [lookupA]

theorem initQueue_nil (w : Word) : initQueue [] w = [] := by
  unfold initQueue
  rw [List.filterMap_eq_nil_iff]
  intro i _
  cases haw : aliveAt w i
  · simp
  · simp only [if_true]
    cases hnl : nextLive w i <;> simp [pairEntry_nil]

/-- With an empty merge map, `merge_all` is the identity. -/
theorem mergeAll_nil (d : Option ℚ) (skips : Nat → Bool) (w : Word) :
    mergeAll [] d skips w = w := by
  unfold mergeAll
  simp only []
  rw [initQueue_nil]
  rw [mergeLoop]
  simp [qMin]

theorem fallbackIds_of_resolve (vocab : Vocab) (F : Nat → Nat) :
    ∀ s : ByteStr, (∀ b ∈ s, lookupA vocab (byteKey b) = some (F b)) →
      fallbackIds vocab s = some (s.map F) := by
  intro s
  induction s with
  | nil => intro _; rfl
  | cons b bs ih =>
    intro hres
    unfold fallbackIds
    rw [hres b (List.mem_cons_self ..)]
    rw [ih (fun b2 hb2 => hres b2 (List.mem_cons_of_mem _ hb2))]
    rfl

/-- C2 (amended): the byte-fallback path operates on the DECORATED span.
For EVERY model with `byte_fallback` enabled, every character span at any
position of the input (`isFirst`, the remaining spans `rest`, and the
pending unknown token `unk` are all arbitrary), whenever the decorated span
is not in the vocab and every byte `b` of the DECORATED span — the
`continuing_subword_prefix` and `end_of_word_suffix` bytes included, since
`decorate` applies both — resolves through its `<0xNN>` key `byteKey b`,
the character loop of `merge_word` emits exactly one symbol per decorated
byte, carrying that byte's `<0xNN>` id with byte length 1, and continues
with the pending unknown token left pending. -/
theorem byte_fallback_decorated (M : Model) (c : ByteStr)
    (rest : List ByteStr) (isFirst : Bool) (unk : Option (Nat × Nat))
    (F : Nat → Nat)
    (hbf : M.byteFallback = true)
    (hmiss : lookupA M.vocab (decorate M isFirst rest.isEmpty c) = none)
    (hres : ∀ b ∈ decorate M isFirst rest.isEmpty c,
      lookupA M.vocab (byteKey b) = some (F b)) :
    mwGo M (c :: rest) isFirst unk =
      (mwGo M rest false unk).map (fun tail =>
        (decorate M isFirst rest.isEmpty c).map (fun b => ⟨F b, 1⟩) ++
          tail) := by
  have hfall : fallbackIds M.vocab (decorate M isFirst rest.isEmpty c) =
      some ((decorate M isFirst rest.isEmpty c).map F) :=
    fallbackIds_of_resolve M.vocab F _ hres
  rw [mwGo]
  simp only [hmiss, hbf, if_true, hfall]
  cases h : mwGo M rest false unk with
  | ok tail => simp [Except.map, List.map_map, Function.comp]
  | error e => simp [Except.map]

/-- Concrete model with byte-fallback, continuing-subword prefix `"#"` AND
end-of-word suffix `"$"`: vocab `a ↦ 0`, `<0x23> ↦ 1` (`#`), `<0x62> ↦ 2`
(`b`), `<0x24> ↦ 3` (`$`). -/
def modelFbSuffix : Model :=
  { vocab := [([97], 0), ([60, 48, 120, 50, 51, 62], 1),
              ([60, 48, 120, 54, 50, 62], 2),
              ([60, 48, 120, 50, 52, 62], 3)],
    vocabR := [(0, [97]), (1, [60, 48, 120, 50, 51, 62]),
               (2, [60, 48, 120, 54, 50, 62]),
               (3, [60, 48, 120, 50, 52, 62])],
    merges := [], dropout := none, unkToken := none,
    contPrefix := some [35], eowSuffix := some [36], fuseUnk := false,
    byteFallback := true, ignoreMerges := false }

/-- C2 witness: on `modelFbSuffix`, the character `"b"` in non-initial,
last position decorates to `"#b$"` — PREFIX and SUFFIX bytes both — and the
fallback emits the `<0x23>`, `<0x62>`, `<0x24>` ids, one per decorated
byte, each of byte length 1. -/
theorem byte_fallback_decorated_witness :
    mwGo modelFbSuffix [[98]] false none =
      (mwGo modelFbSuffix [] false none).map (fun tail =>
        (decorate modelFbSuffix false (List.isEmpty ([] : List ByteStr))
            [98]).map
          (fun b =>
            ⟨(if b = 35 then 1 else if b = 98 then 2 else 3 : Nat), 1⟩) ++
          tail) :=
  byte_fallback_decorated modelFbSuffix [98] [] false none
    (fun b => if b = 35 then 1 else if b = 98 then 2 else 3) rfl rfl
    (by decide)

/-- Concrete model with byte-fallback and continuing-subword prefix `"#"`:
vocab `a ↦ 0`, `<0x23> ↦ 1` (`#` is byte `0x23`), `<0x62> ↦ 2` (`b`). -/
def modelFb : Model :=
  { vocab := [([97], 0), ([60, 48, 120, 50, 51, 62], 1),
              ([60, 48, 120, 54, 50, 62], 2)],
    vocabR := [(0, [97]), (1, [60, 48, 120, 50, 51, 62]),
               (2, [60, 48, 120, 54, 50, 62])],
    merges := [], dropout := none, unkToken := none,
    contPrefix := some [35], eowSuffix := none, fuseUnk := false,
    byteFallback := true, ignoreMerges := false }

/-- C2 counterexample to the claim as stated: on `modelFb` and input
`"ab"`, the code byte-fallback-encodes the PREFIX byte `0x23` as well — it
emits `<0x23>` (id 1) and `<0x62>` (id 2), not just the undecorated byte
`<0x62>` with offsets `(1, 2)` that the claim demands. -/
theorem byte_fallback_decorated_cex :
    (tokenize modelFb 256 (fun _ => false) none [[97], [98]]).fst =
      .ok [⟨0, some [97], (0, 1)⟩,
           ⟨1, some [60, 48, 120, 50, 51, 62], (1, 2)⟩,
           ⟨2, some [60, 48, 120, 54, 50, 62], (2, 3)⟩] ∧
    (Except.ok [⟨0, some [97], (0, 1)⟩,
           ⟨1, some [60, 48, 120, 50, 51, 62], (1, 2)⟩,
           ⟨2, some [60, 48, 120, 54, 50, 62], (2, 3)⟩] :
        Except BpeError (List Token)) ≠
      .ok [⟨0, some [97], (0, 1)⟩,
           ⟨2, some [60, 48, 120, 54, 50, 62], (1, 2)⟩] :=
  ⟨rfl, by decide⟩

/-! ## Claim C5 -/

theorem readVocabEntries_skip (t0 : String) (v0 : Json)
    (rest : List (String × Json)) (acc : List (String × Nat))
    (hnum : ∀ n, v0 ≠ Json.num n) :
    readVocabEntries ((t0, v0) :: rest) acc = readVocabEntries rest acc := by
  cases v0 with
  | num n => exact absurd rfl (hnum n)
  | null => rfl
  | bool b => rfl
  | str s => rfl
  | arr l => rfl
  | obj l => rfl

theorem readVocabEntries_error_iff :
    ∀ (entries : List (String × Json)) (acc : List (String × Nat)),
      readVocabEntries entries acc = .error .BadVocabulary ↔
        ∃ t n, (t, Json.num n) ∈ entries ∧ n.asU64 = none := by
  intro entries
  induction entries with
  | nil =>
    intro acc
    constructor
    · intro h; simp [readVocabEntries] at h
    · rintro ⟨t, n, hmem, _⟩; simp at hmem
  | cons e rest ih =>
    intro acc
    obtain ⟨t0, v0⟩ := e
    cases v0
    case num n0 =>
      have hstep : readVocabEntries ((t0, Json.num n0) :: rest) acc =
          (match n0.asU64 with
           | some u => readVocabEntries rest (insertA acc t0 (u % 2 ^ 32))
           | none => .error .BadVocabulary) := rfl
      rw [hstep]
      cases hu : n0.asU64 with
      | some u =>
        simp only []
        rw [ih]
        constructor
        · rintro ⟨t, n, hmem, hn⟩
          exact ⟨t, n, List.mem_cons_of_mem _ hmem, hn⟩
        · rintro ⟨t, n, hmem, hn⟩
          rcases List.mem_cons.mp hmem with heq | hmem2
          · have hn0 : n = n0 := by
              have h2 := congrArg Prod.snd heq
              simpa using h2
            subst hn0
            rw [hu] at hn
            cases hn
          · exact ⟨t, n, hmem2, hn⟩
      | none =>
        simp only []
        constructor
        · intro _; exact ⟨t0, n0, List.mem_cons_self .., hu⟩
        · intro _; trivial
    all_goals
      rw [readVocabEntries_skip _ _ _ _ (fun n h => Json.noConfusion h), ih]
      constructor
      · rintro ⟨t, n, hmem, hn⟩
        exact ⟨t, n, List.mem_cons_of_mem _ hmem, hn⟩
      · rintro ⟨t, n, hmem, hn⟩
        rcases List.mem_cons.mp hmem with heq | hmem2
        · exact absurd (congrArg Prod.snd heq) (by simp)
        · exact ⟨t, n, hmem2, hn⟩

/-- C5 (amended): the vocab reading fails with `BadVocabulary` iff the
document is not an object, or the object contains a NUMBER value that is
not an unsigned 64-bit integer.  Non-number values (strings, booleans,
arrays, ...) are silently skipped, not rejected. -/
theorem readVocabJson_badVocabulary_iff (j : Json) :
    readVocabJson j = .error .BadVocabulary ↔
      ((∀ m, j ≠ .obj m) ∨
       ∃ m, j = .obj m ∧ ∃ t n, (t, Json.num n) ∈ m ∧ n.asU64 = none) := by
  cases j with
  | obj m =>
    rw [readVocabJson, readVocabEntries_error_iff]
    constructor
    · intro hbad; exact Or.inr ⟨m, rfl, hbad⟩
    · rintro (hno | ⟨m2, heq, hbad⟩)
      · exact absurd rfl (hno m)
      · injection heq with h
        subst h
        exact hbad
  | null =>
    constructor
    · intro _; exact Or.inl (fun m h => nomatch h)
    · intro _; rfl
  | bool b =>
    constructor
    · intro _; exact Or.inl (fun m h => nomatch h)
    · intro _; rfl
  | num n =>
    constructor
    · intro _; exact Or.inl (fun m h => nomatch h)
    · intro _; rfl
  | str s =>
    constructor
    · intro _; exact Or.inl (fun m h => nomatch h)
    · intro _; rfl
  | arr l =>
    constructor
    · intro _; exact Or.inl (fun m h => nomatch h)
    · intro _; rfl

/-- C5 counterexample to the claim as stated: an object with a STRING value
is accepted by `read_file`'s vocab loop — the entry is silently skipped (the
`if let Value::Number` falls through), and the result is `ok` with an empty
vocab, not `BadVocabulary`. -/
theorem readVocabJson_cex :
    readVocabJson (.obj [("a", .str "x")]) = .ok [] ∧
    (Except.ok [] : Except BpeError (List (String × Nat))) ≠
      .error .BadVocabulary :=
  ⟨rfl, fun h => nomatch h⟩

/-! ## Claim C6 -/

theorem findIdx?_cons_map {α : Type} (p : α → Bool) (x : α) (xs : List α) :
    List.findIdx? p (x :: xs) =
      if p x then some 0 else (List.findIdx? p xs).map (· + 1) := by
  rw [List.findIdx?_cons]
  cases h : p x <;> simp [h, List.findIdx?_succ]

/-- The pair of a well-formed merge line (exactly two space-separated
parts); junk value on ill-formed lines. -/
def linePair (l : List Char) : List Char × List Char :=
  match splitOnSpace l with
  | [a, b] => (a, b)
  | _ => ([], [])

/-- Does a line fail the exactly-two-parts check?  (An empty line splits
into one empty part and FAILS; a line with two consecutive spaces or other
whitespace also fails, since only `' '` separates.) -/
def lineBad (l : List Char) : Bool := (splitOnSpace l).length ≠ 2

/-- The amended merges-parsing contract, stated declaratively: filter every
`#version`-prefixed line; if some remaining line (empty lines included)
does not split on the space character into exactly two parts, fail with
`BadMerges` of its 1-based post-filter index (the first such line);
otherwise return the pairs in line order (earlier line = lower rank). -/
def convertMergesSpec (lines : List (List Char)) :
    Except BpeError (List (List Char × List Char)) :=
  let fl := lines.filter (fun l => !(versionHeader.isPrefixOf l))
  match fl.findIdx? lineBad with
  | some k => .error (.BadMerges (k + 1))
  | none => .ok (fl.map linePair)

theorem convertMergesGo_spec :
    ∀ (fl : List (List Char)) (rank : Nat),
      convertMergesGo rank fl =
        match fl.findIdx? lineBad with
        | some k => .error (.BadMerges (rank + k + 1))
        | none => .ok (fl.map linePair) := by
  intro fl
  induction fl with
  | nil => intro rank; rfl
  | cons l rest ih =>
    intro rank
    rw [convertMergesGo, findIdx?_cons_map]
    cases hb : lineBad l with
    | true =>
      simp only [if_true]
      unfold lineBad at hb
      cases hsp : splitOnSpace l with
      | nil => simp
      | cons a t =>
        cases t with
        | nil => simp
        | cons b t2 =>
          cases t2 with
          | nil =>
            rw [hsp] at hb
            simp at hb
          | cons c t3 => simp
    | false =>
      simp only [Bool.false_eq_true, if_false]
      unfold lineBad at hb
      cases hsp : splitOnSpace l with
      | nil => rw [hsp] at hb; simp at hb
      | cons a t =>
        cases t with
        | nil => rw [hsp] at hb; simp at hb
        | cons b t2 =>
          cases t2 with
          | cons c t3 => rw [hsp] at hb; simp at hb
          | nil =>
            simp only []
            rw [ih (rank + 1)]
            cases hfi : rest.findIdx? lineBad with
            | some k =>
              have harith : rank + 1 + k + 1 = rank + (k + 1) + 1 := by omega
              simp [harith]
            | none => simp [linePair, hsp]

/-- C6 (amended): the single-pass merges parser agrees with the
declarative contract `convertMergesSpec` on every input: success iff every
post-filter line (empty lines included) splits on the space character into
exactly two parts, `BadMerges` carries the 1-based post-filter index of the
first offending line, and ranks follow line order. -/
theorem convertMerges_eq_spec (lines : List (List Char)) :
    convertMerges lines = convertMergesSpec lines := by
  unfold convertMerges convertMergesSpec
  simp only []
  rw [convertMergesGo_spec]
  cases (lines.filter (fun l => !(versionHeader.isPrefixOf l))).findIdx?
      lineBad <;> simp

/-- C6 counterexample to the claim as stated: an empty line is NOT
tolerated — it splits into one (empty) part, so parsing a file consisting
of a single empty line fails with `BadMerges 1` instead of succeeding. -/
theorem convertMerges_cex :
    convertMerges [([] : List Char)] = .error (.BadMerges 1) ∧
    (Except.error (BpeError.BadMerges 1) :
        Except BpeError (List (List Char × List Char))) ≠ .ok [] :=
  ⟨rfl, fun h => nomatch h⟩

/-! ## Claim C7 -/

/-- A merge writes the merge-map key `key` when both of its tokens resolve
in the vocab and their ids form `key`. -/
def writesPair (vocab : Vocab) (key : Nat × Nat)
    (ab : ByteStr × ByteStr) : Prop :=
  ∃ aId bId, lookupA vocab ab.1 = some aId ∧
    lookupA vocab ab.2 = some bId ∧ key = (aId, bId)

theorem sliceFrom_eq_drop (b : ByteStr) (i : Nat) (bt : ByteStr)
    (h : sliceFrom b i = some bt) : bt = b.drop i := by
  unfold sliceFrom at h
  cases hcb : isCharBoundary b i with
  | true =>
    rw [hcb] at h
    simp at h
    exact h.symm
  | false =>
    rw [hcb] at h
    simp at h

theorem buildMergeMap_ok_conditions (vocab : Vocab) (plen : Nat) :
    ∀ (l : List (ByteStr × ByteStr)) (i : Nat) (acc mm : MergeMap),
      buildMergeMap vocab plen i acc l = .ok mm →
      ∀ ab ∈ l, (lookupA vocab ab.1).isSome ∧ (lookupA vocab ab.2).isSome ∧
        (sliceFrom ab.2 plen).isSome ∧
        (lookupA vocab (ab.1 ++ ab.2.drop plen)).isSome := by
  intro l
  induction l with
  | nil => intro i acc mm h ab hab; simp at hab
  | cons hd rest ih =>
    intro i acc mm h ab hab
    obtain ⟨a, b⟩ := hd
    rw [buildMergeMap] at h
    cases h1 : lookupA vocab a with
    | none => rw [h1] at h; nomatch h
    | some aId =>
      rw [h1] at h
      simp only [] at h
      cases h2 : lookupA vocab b with
      | none => rw [h2] at h; nomatch h
      | some bId =>
        rw [h2] at h
        simp only [] at h
        cases h3 : sliceFrom b plen with
        | none => rw [h3] at h; nomatch h
        | some bt =>
          rw [h3] at h
          simp only [] at h
          have hbt : bt = b.drop plen := sliceFrom_eq_drop b plen bt h3
          cases h4 : lookupA vocab (a ++ bt) with
          | none => rw [h4] at h; nomatch h
          | some newId =>
            rw [h4] at h
            simp only [] at h
            rcases List.mem_cons.mp hab with heq | hmem
            · subst heq
              refine ⟨by simp [h1], by simp [h2], by simp [h3], ?_⟩
              rw [← hbt]
              simp [h4]
            · exact ih (i + 1) _ mm h ab hmem

theorem buildMergeMap_err_missing (vocab : Vocab) (plen : Nat) :
    ∀ (l : List (ByteStr × ByteStr)) (i : Nat) (acc : MergeMap)
      (t : ByteStr),
      buildMergeMap vocab plen i acc l =
        .err (.MergeTokenOutOfVocabulary t) →
      lookupA vocab t = none ∧
        ∃ ab ∈ l, t = ab.1 ∨ t = ab.2 ∨ t = ab.1 ++ ab.2.drop plen := by
  intro l
  induction l with
  | nil => intro i acc t h; nomatch h
  | cons hd rest ih =>
    intro i acc t h
    obtain ⟨a, b⟩ := hd
    rw [buildMergeMap] at h
    cases h1 : lookupA vocab a with
    | none =>
      rw [h1] at h
      injection h with h2
      injection h2 with h3
      subst h3
      exact ⟨h1, ⟨(a, b), List.mem_cons_self .., Or.inl rfl⟩⟩
    | some aId =>
      rw [h1] at h
      simp only [] at h
      cases h2 : lookupA vocab b with
      | none =>
        rw [h2] at h
        injection h with h3
        injection h3 with h4
        subst h4
        exact ⟨h2, ⟨(a, b), List.mem_cons_self .., Or.inr (Or.inl rfl)⟩⟩
      | some bId =>
        rw [h2] at h
        simp only [] at h
        cases h3 : sliceFrom b plen with
        | none => rw [h3] at h; nomatch h
        | some bt =>
          rw [h3] at h
          simp only [] at h
          have hbt : bt = b.drop plen := sliceFrom_eq_drop b plen bt h3
          cases h4 : lookupA vocab (a ++ bt) with
          | none =>
            rw [h4] at h
            injection h with h5
            injection h5 with h6
            subst h6
            exact ⟨h4, ⟨(a, b), List.mem_cons_self ..,
              Or.inr (Or.inr (by rw [hbt]))⟩⟩
          | some newId =>
            rw [h4] at h
            simp only [] at h
            obtain ⟨hnone, ab, hmem, hor⟩ := ih (i + 1) _ t h
            exact ⟨hnone, ab, List.mem_cons_of_mem _ hmem, hor⟩

theorem buildMergeMap_lookup_preserved (vocab : Vocab) (plen : Nat)
    (key : Nat × Nat) :
    ∀ (l : List (ByteStr × ByteStr)) (i : Nat) (acc mm : MergeMap),
      buildMergeMap vocab plen i acc l = .ok mm →
      (∀ (j : Nat) (ab2 : ByteStr × ByteStr), l[j]? = some ab2 →
        ¬ writesPair vocab key ab2) →
      lookupA mm key = lookupA acc key := by
  intro l
  induction l with
  | nil =>
    intro i acc mm h _
    rw [buildMergeMap] at h
    injection h with h2
    rw [h2]
  | cons hd rest ih =>
    intro i acc mm h hnw
    obtain ⟨a, b⟩ := hd
    rw [buildMergeMap] at h
    cases h1 : lookupA vocab a with
    | none => rw [h1] at h; nomatch h
    | some aId =>
      rw [h1] at h
      simp only [] at h
      cases h2 : lookupA vocab b with
      | none => rw [h2] at h; nomatch h
      | some bId =>
        rw [h2] at h
        simp only [] at h
        cases h3 : sliceFrom b plen with
        | none => rw [h3] at h; nomatch h
        | some bt =>
          rw [h3] at h
          simp only [] at h
          cases h4 : lookupA vocab (a ++ bt) with
          | none => rw [h4] at h; nomatch h
          | some newId =>
            rw [h4] at h
            simp only [] at h
            have hkey : key ≠ (aId, bId) := by
              intro hk
              exact hnw 0 (a, b) (by simp) ⟨aId, bId, h1, h2, hk⟩
            rw [ih (i + 1) _ mm h
              (by intro j ab2 hj; exact hnw (j + 1) ab2 (by simpa using hj))]
            exact lookupA_insertA_of_ne acc (aId, bId) key _ hkey

theorem buildMergeMap_last_write (vocab : Vocab) (plen : Nat) :
    ∀ (l : List (ByteStr × ByteStr)) (i : Nat) (acc mm : MergeMap)
      (k : Nat) (a b : ByteStr) (aId bId newId : Nat),
      buildMergeMap vocab plen i acc l = .ok mm →
      l[k]? = some (a, b) →
      lookupA vocab a = some aId →
      lookupA vocab b = some bId →
      lookupA vocab (a ++ b.drop plen) = some newId →
      (∀ j ab2, k < j → l[j]? = some ab2 →
        ¬ writesPair vocab (aId, bId) ab2) →
      lookupA mm (aId, bId) = some ((i + k) % 2 ^ 32, newId) := by
  intro l
  induction l with
  | nil => intro i acc mm k a b aId bId newId h hk; nomatch hk
  | cons hd rest ih =>
    intro i acc mm k a b aId bId newId h hk ha hb hcat hlater
    obtain ⟨a0, b0⟩ := hd
    rw [buildMergeMap] at h
    cases k with
    | zero =>
      simp at hk
      obtain ⟨hk1, hk2⟩ := hk
      rw [hk1, hk2] at h
      rw [ha] at h
      simp only [] at h
      rw [hb] at h
      simp only [] at h
      cases h3 : sliceFrom b plen with
      | none => rw [h3] at h; nomatch h
      | some bt =>
        rw [h3] at h
        simp only [] at h
        have hbt : bt = b.drop plen := sliceFrom_eq_drop b plen bt h3
        rw [hbt, hcat] at h
        simp only [] at h
        rw [buildMergeMap_lookup_preserved vocab plen (aId, bId) rest
          (i + 1) _ mm h
          (fun j ab2 hj => hlater (j + 1) ab2 (by omega) (by simpa using hj))]
        rw [lookupA_insertA_self]
        simp
    | succ k2 =>
      cases h1 : lookupA vocab a0 with
      | none => rw [h1] at h; nomatch h
      | some aId0 =>
        rw [h1] at h
        simp only [] at h
        cases h2 : lookupA vocab b0 with
        | none => rw [h2] at h; nomatch h
        | some bId0 =>
          rw [h2] at h
          simp only [] at h
          cases h3 : sliceFrom b0 plen with
          | none => rw [h3] at h; nomatch h
          | some bt0 =>
            rw [h3] at h
            simp only [] at h
            cases h4 : lookupA vocab (a0 ++ bt0) with
            | none => rw [h4] at h; nomatch h
            | some newId0 =>
              rw [h4] at h
              simp only [] at h
              have hrec := ih (i + 1) _ mm k2 a b aId bId newId h
                (by simpa using hk) ha hb hcat
                (fun j ab2 hj hjg =>
                  hlater (j + 1) ab2 (by omega) (by simpa using hjg))
              rw [hrec]
              have harith : i + 1 + k2 = i + (k2 + 1) := by omega
              rw [harith]

theorem build_ok_inv (cfg : Config) (M : Model) (h : build cfg = .ok M) :
    buildMergeMap cfg.vocab (prefixLen cfg) 0 [] cfg.merges =
      .ok M.merges ∧
    M.vocab = cfg.vocab ∧ M.vocabR = buildVocabR cfg.vocab := by
  unfold build at h
  simp only [] at h
  split at h
  · nomatch h
  · split at h
    · nomatch h
    · nomatch h
    · next mm hmm2 =>
      injection h with h2
      subst h2
      exact ⟨hmm2, rfl, rfl⟩

theorem build_err_inv (cfg : Config) (t : ByteStr)
    (h : build cfg = .err (.MergeTokenOutOfVocabulary t)) :
    buildMergeMap cfg.vocab (prefixLen cfg) 0 [] cfg.merges =
      .err (.MergeTokenOutOfVocabulary t) := by
  unfold build at h
  simp only [] at h
  split at h
  · injection h with h2; nomatch h2
  · split at h
    · next e herr =>
      injection h with h2
      rw [herr, h2]
    · nomatch h
    · nomatch h

/-- C7 (amended): merge-vocab validation of `build()` — (a) on success
every merge's two tokens and its concatenation `a + b[prefix_len..]` are in
the vocab; (b) a `MergeTokenOutOfVocabulary(t)` failure always carries a
token missing from the vocab that is one of some merge's `a`, `b`, or
concatenation; (c) on success the MergeMap maps `(id(a), id(b))` to
`(rank, id(concatenation))` for the LAST merge with that id pair (a later
duplicate id pair overwrites an earlier one). -/
theorem build_merge_validation (cfg : Config) :
    (∀ M, build cfg = .ok M →
      ∀ ab ∈ cfg.merges, (lookupA cfg.vocab ab.1).isSome ∧
        (lookupA cfg.vocab ab.2).isSome ∧
        (lookupA cfg.vocab (ab.1 ++ ab.2.drop (prefixLen cfg))).isSome) ∧
    (∀ t, build cfg = .err (.MergeTokenOutOfVocabulary t) →
      lookupA cfg.vocab t = none ∧
      ∃ ab ∈ cfg.merges, t = ab.1 ∨ t = ab.2 ∨
        t = ab.1 ++ ab.2.drop (prefixLen cfg)) ∧
    (∀ M (k : Nat) (a b : ByteStr) (aId bId newId : Nat),
      build cfg = .ok M →
      cfg.merges[k]? = some (a, b) →
      lookupA cfg.vocab a = some aId →
      lookupA cfg.vocab b = some bId →
      lookupA cfg.vocab (a ++ b.drop (prefixLen cfg)) = some newId →
      (∀ (j : Nat) (ab2 : ByteStr × ByteStr), k < j →
        cfg.merges[j]? = some ab2 →
        ¬ writesPair cfg.vocab (aId, bId) ab2) →
      lookupA M.merges (aId, bId) = some (k % 2 ^ 32, newId)) := by
  refine ⟨?_, ?_, ?_⟩
  · intro M hb ab hab
    obtain ⟨hmm, _, _⟩ := build_ok_inv cfg M hb
    obtain ⟨h1, h2, _, h4⟩ := buildMergeMap_ok_conditions cfg.vocab
      (prefixLen cfg) cfg.merges 0 [] M.merges hmm ab hab
    exact ⟨h1, h2, h4⟩
  · intro t hb
    exact buildMergeMap_err_missing cfg.vocab (prefixLen cfg) cfg.merges
      0 [] t (build_err_inv cfg t hb)
  · intro M k a b aId bId newId hb hk ha hbq hcat hlater
    obtain ⟨hmm, _, _⟩ := build_ok_inv cfg M hb
    have := buildMergeMap_last_write cfg.vocab (prefixLen cfg) cfg.merges
      0 [] M.merges k a b aId bId newId hmm hk ha hbq hcat hlater
    simpa using this

/-- Projection of a build outcome to its model (junk on failure). -/
def modelOf : BuildOutcome → Model
  | .ok m => m
  | _ =>
    { vocab := [], vocabR := [], merges := [], dropout := none,
      unkToken := none, contPrefix := none, eowSuffix := none,
      fuseUnk := false, byteFallback := false, ignoreMerges := false }

/-- Projection of a build outcome to its merge map (empty on failure). -/
def mergesOf : BuildOutcome → MergeMap
  | .ok m => m.merges
  | _ => []

/-- Configuration with a DUPLICATED merge pair: `a b` at ranks 0 and 1. -/
def cfgDup : Config :=
  { vocab := [([97], 0), ([98], 1), ([97, 98], 2)],
    merges := [([97], [98]), ([97], [98])],
    dropout := none, unkToken := none, contPrefix := none,
    eowSuffix := none, fuseUnk := false, byteFallback := false,
    ignoreMerges := false }

/-- C7 witness: on `cfgDup`, part (c) of `build_merge_validation` applied
to the rank-1 merge (the last with its id pair) yields its map entry. -/
theorem build_merge_validation_witness :
    lookupA (modelOf (build cfgDup)).merges (0, 1) =
      some (1 % 2 ^ 32, 2) :=
  (build_merge_validation cfgDup).2.2 (modelOf (build cfgDup)) 1 [97] [98]
    0 1 2 rfl rfl rfl rfl rfl
    (by
      intro j ab2 hj hget
      rw [List.getElem?_eq_none (by simp [cfgDup]; omega)] at hget
      nomatch hget)

/-- C7 counterexample to the claim as stated: with the same pair `a b`
merged at ranks 0 and 1, the resulting MergeMap maps `(id(a), id(b))` to
`(1, id(ab))` — the rank-0 merge does NOT get its `(0, id(ab))` entry, the
later duplicate overwrote it. -/
theorem build_merge_validation_cex :
    lookupA (mergesOf (build cfgDup)) (0, 1) = some (1, 2) ∧
    (some ((1 : Nat), (2 : Nat)) : Option (Nat × Nat)) ≠ some (0, 2) :=
  ⟨rfl, by decide⟩

/-! ## Claim C8 -/

theorem lookupA_foldl_insert_preserved :
    ∀ (l : Vocab) (acc : VocabR) (i : Nat) (s : ByteStr),
      lookupA acc i = some s → (∀ q ∈ l, q.2 = i → q.1 = s) →
      lookupA (l.foldl (fun ac kv => insertA ac kv.2 kv.1) acc) i =
        some s := by
  intro l
  induction l with
  | nil => intro acc i s hacc _; exact hacc
  | cons q rest ih =>
    intro acc i s hacc hdet
    obtain ⟨s0, i0⟩ := q
    simp only [List.foldl_cons]
    by_cases hi : i0 = i
    · subst hi
      have hs0 : s0 = s := hdet (s0, i0) (List.mem_cons_self ..) rfl
      subst hs0
      exact ih (insertA acc i0 s0) i0 s0 (lookupA_insertA_self ..)
        (fun q2 hq2 => hdet q2 (List.mem_cons_of_mem _ hq2))
    · refine ih (insertA acc i0 s0) i s ?_
        (fun q2 hq2 => hdet q2 (List.mem_cons_of_mem _ hq2))
      rw [lookupA_insertA_of_ne acc i0 i s0 (fun he => hi he.symm)]
      exact hacc

theorem foldl_insert_mem :
    ∀ (l : Vocab) (acc : VocabR) (s : ByteStr) (i : Nat),
      (s, i) ∈ l → (∀ q ∈ l, q.2 = i → q.1 = s) →
      lookupA (l.foldl (fun ac kv => insertA ac kv.2 kv.1) acc) i =
        some s := by
  intro l
  induction l with
  | nil => intro acc s i hmem; simp at hmem
  | cons q rest ih =>
    intro acc s i hmem hdet
    obtain ⟨s0, i0⟩ := q
    simp only [List.foldl_cons]
    rcases List.mem_cons.mp hmem with heq | hmem2
    · have hs : s0 = s := congrArg Prod.fst heq.symm
      have hi : i0 = i := congrArg Prod.snd heq.symm
      subst hs
      subst hi
      exact lookupA_foldl_insert_preserved rest (insertA acc i0 s0) i0 s0
        (lookupA_insertA_self ..)
        (fun q2 hq2 => hdet q2 (List.mem_cons_of_mem _ hq2))
    · exact ih (insertA acc i0 s0) s i hmem2
        (fun q2 hq2 => hdet q2 (List.mem_cons_of_mem _ hq2))

/-- C8 (amended): inverse-vocab round-trip, for vocabularies whose id
assignment is injective (no two tokens share an id): for every entry
`(s, i)` of the vocab of a successfully built model, `id_to_token(i)`
returns `Some(s)`. -/
theorem idToToken_roundTrip (cfg : Config) (M : Model)
    (hinj : ∀ p ∈ cfg.vocab, ∀ q ∈ cfg.vocab, p.2 = q.2 → p.1 = q.1)
    (hb : build cfg = .ok M) :
    ∀ (s : ByteStr) (i : Nat), (s, i) ∈ cfg.vocab →
      idToToken M i = some s := by
  intro s i hmem
  obtain ⟨_, _, hvr⟩ := build_ok_inv cfg M hb
  unfold idToToken
  rw [hvr]
  unfold buildVocabR
  exact foldl_insert_mem cfg.vocab [] s i hmem
    (fun q hq hqs => hinj q hq (s, i) hmem hqs)

/-- Injective example vocabulary. -/
def vocabInj : Vocab := [([97], 0), ([98], 1)]

/-- C8 witness: on the injective vocabulary `vocabInj`, the round-trip
holds for the entry `("a", 0)`. -/
theorem idToToken_roundTrip_witness :
    idToToken (modelOf (build (newConfig vocabInj []))) 0 = some [97] :=
  idToToken_roundTrip (newConfig vocabInj [])
    (modelOf (build (newConfig vocabInj []))) (by decide) rfl [97] 0
    (by decide)

/-- Vocabulary in which two distinct tokens share id 0. -/
def vocabShared : Vocab := [([97], 0), ([98], 0)]

/-- C8 counterexample to the claim as stated: with two tokens sharing id 0,
the inverse vocab keeps only one of them — `id_to_token(0)` returns the
token `"b"`, so the vocab entry `("a", 0)` does not round-trip. -/
theorem idToToken_roundTrip_cex :
    (([97], 0) ∈ vocabShared) ∧
    idToToken (modelOf (build (newConfig vocabShared []))) 0 = some [98] ∧
    (some ([98] : ByteStr) : Option ByteStr) ≠ some [97] :=
  ⟨by decide, rfl, by decide⟩

/-! ## Claim C9 -/

/-- The three conditions that let one merge pass the merge-map loop
without error or panic. -/
def mergeStepOk (vocab : Vocab) (plen : Nat)
    (ab : ByteStr × ByteStr) : Prop :=
  (lookupA vocab ab.1).isSome ∧ (lookupA vocab ab.2).isSome ∧
  ∃ bt, sliceFrom ab.2 plen = some bt ∧
    (lookupA vocab (ab.1 ++ bt)).isSome

theorem buildMergeMap_panic (vocab : Vocab) (plen : Nat) :
    ∀ (l : List (ByteStr × ByteStr)) (i : Nat) (acc : MergeMap)
      (k : Nat) (a b : ByteStr),
      (∀ (j : Nat) (ab2 : ByteStr × ByteStr), j < k → l[j]? = some ab2 →
        mergeStepOk vocab plen ab2) →
      l[k]? = some (a, b) →
      (lookupA vocab a).isSome → (lookupA vocab b).isSome →
      sliceFrom b plen = none →
      buildMergeMap vocab plen i acc l = .panicked := by
  intro l
  induction l with
  | nil => intro i acc k a b _ hk; nomatch hk
  | cons hd rest ih =>
    intro i acc k a b hsteps hk ha hb hslice
    obtain ⟨a0, b0⟩ := hd
    rw [buildMergeMap]
    cases k with
    | zero =>
      simp at hk
      obtain ⟨hk1, hk2⟩ := hk
      obtain ⟨aId, haId⟩ := Option.isSome_iff_exists.mp ha
      obtain ⟨bId, hbId⟩ := Option.isSome_iff_exists.mp hb
      rw [hk1, hk2, haId]
      simp only []
      rw [hbId]
      simp only []
      rw [hslice]
    | succ k2 =>
      have hstep0 := hsteps 0 (a0, b0) (by omega) (by simp)
      obtain ⟨ha0, hb0, bt0, hsl0, hcat0⟩ := hstep0
      obtain ⟨aId0, haId0⟩ := Option.isSome_iff_exists.mp ha0
      obtain ⟨bId0, hbId0⟩ := Option.isSome_iff_exists.mp hb0
      obtain ⟨newId0, hnew0⟩ := Option.isSome_iff_exists.mp hcat0
      rw [haId0]
      simp only []
      rw [hbId0]
      simp only []
      rw [hsl0]
      simp only []
      rw [hnew0]
      simp only []
      exact ih (i + 1) _ k2 a b
        (fun j ab2 hj hget =>
          hsteps (j + 1) ab2 (by omega) (by simpa using hget))
        (by simpa using hk) ha hb hslice

/-- C9: the unchecked slice `&b[prefix_len..]` of `build()` — when a
continuing-subword prefix is set and a merge (reached without an earlier
error) has a second token that is shorter than the prefix, or whose byte at
index `prefix_len` is a UTF-8 continuation byte, `build()` panics instead
of returning an error. -/
theorem build_slice_panic (cfg : Config) (p : ByteStr) (k : Nat)
    (a b : ByteStr)
    (hp : cfg.contPrefix = some p)
    (hd : cfg.dropout = none ∨ ∃ q, cfg.dropout = some q ∧ 0 ≤ q ∧ q ≤ 1)
    (hsteps : ∀ (j : Nat) (ab2 : ByteStr × ByteStr), j < k →
      cfg.merges[j]? = some ab2 → mergeStepOk cfg.vocab p.length ab2)
    (hk : cfg.merges[k]? = some (a, b))
    (ha : (lookupA cfg.vocab a).isSome)
    (hb : (lookupA cfg.vocab b).isSome)
    (hbad : b.length < p.length ∨
      (0 < p.length ∧ ∃ v, b[p.length]? = some v ∧ 128 ≤ v ∧ v < 192)) :
    build cfg = .panicked := by
  have hplen : prefixLen cfg = p.length := by simp [prefixLen, hp]
  have hslice : sliceFrom b p.length = none := by
    unfold sliceFrom
    have hcb : isCharBoundary b p.length = false := by
      unfold isCharBoundary
      rcases hbad with hlt | ⟨hpos, v, hv, h128, h192⟩
      · rw [if_neg (by omega)]
        rw [List.getElem?_eq_none (by omega)]
        simp
        omega
      · rw [if_neg (by omega)]
        rw [hv]
        simp
        omega
    rw [hcb]
    simp
  unfold build
  simp only []
  have hdb : (match cfg.dropout with
      | some p0 => decide (p0 < 0 ∨ 1 < p0)
      | none => false) = false := by
    rcases hd with hno | ⟨q, hq, h0, h1⟩
    · rw [hno]
    · rw [hq]
      simp only [decide_eq_false_iff_not]
      intro hor
      rcases hor with hq0 | hq1
      · linarith
      · linarith
  rw [hdb]
  simp only [Bool.false_eq_true, if_false]
  rw [hplen]
  rw [buildMergeMap_panic cfg.vocab p.length cfg.merges 0 [] k a b
    hsteps hk ha hb hslice]

/-- Configuration whose merge's second token `"b"` (1 byte) is shorter
than the continuing-subword prefix `"##"` (2 bytes). -/
def cfgPanic : Config :=
  { vocab := [([97], 0), ([98], 1)], merges := [([97], [98])],
    dropout := none, unkToken := none, contPrefix := some [35, 35],
    eowSuffix := none, fuseUnk := false, byteFallback := false,
    ignoreMerges := false }

/-- C9 witness: on `cfgPanic`, `build()` panics. -/
theorem build_slice_panic_witness : build cfgPanic = .panicked :=
  build_slice_panic cfgPanic [35, 35] 0 [97] [98] rfl (Or.inl rfl)
    (fun j ab2 hj _ => absurd hj (by omega)) rfl rfl rfl
    (Or.inl (by decide))

/-! ## Claim C10 -/

/-- C10: `BPE::new` unwraps the builder result, so it panics (no error
return path) on every vocab/merges input on which `build()` returns an
error. -/
theorem newBPE_panics_on_build_error (vocab : Vocab)
    (merges : List (ByteStr × ByteStr)) (e : BpeError)
    (h : build (newConfig vocab merges) = .err e) :
    newBPE vocab merges = none := by
  unfold newBPE
  rw [h]

/-- C10 witness: with an empty vocab, the merge `a b` is out of
vocabulary, `build()` errors and `BPE::new` panics. -/
theorem newBPE_panics_on_build_error_witness :
    newBPE [] [([97], [98])] = none :=
  newBPE_panics_on_build_error [] [([97], [98])]
    (.MergeTokenOutOfVocabulary [97]) rfl

end Bpe
